import Mathlib

/-!
Verification of the GreekConjugator text-processing and conjugation pipeline.

Strings are modelled as `List Char`.  The Unicode operations used by the code
(`unicodedata.normalize('NFD'/'NFC', ·)`, the `Mn` category test, `str.lower`,
`str.strip`) are modelled by explicit tables restricted to the character
repertoire the program processes: ASCII plus the Modern Greek monotonic
alphabet with its combining marks.  Every definition mirrors the Python
source in `backend/app/services/greek_text.py` and
`backend/app/services/greek_conjugation_generator.py` /
`greek_conjugation_classes.py`.
-/

namespace GreekConjugator

/-- Shorthand: the character list of a string literal. -/
def g (s : String) : List Char := s.data

/-- Canonical decomposition table for the precomposed Modern Greek monotonic
characters (mirrors `unicodedata.normalize('NFD', ·)` on this repertoire).
The marks are U+0301 (acute) and U+0308 (diaeresis). -/
def decompTable : List (Char × List Char) :=
  [ ('ά', ['α', '́']),  -- ά
    ('έ', ['ε', '́']),  -- έ
    ('ή', ['η', '́']),  -- ή
    ('ί', ['ι', '́']),  -- ί
    ('ό', ['ο', '́']),  -- ό
    ('ύ', ['υ', '́']),  -- ύ
    ('ώ', ['ω', '́']),  -- ώ
    ('Ά', ['Α', '́']),  -- Ά
    ('Έ', ['Ε', '́']),  -- Έ
    ('Ή', ['Η', '́']),  -- Ή
    ('Ί', ['Ι', '́']),  -- Ί
    ('Ό', ['Ο', '́']),  -- Ό
    ('Ύ', ['Υ', '́']),  -- Ύ
    ('Ώ', ['Ω', '́']),  -- Ώ
    ('ϊ', ['ι', '̈']),  -- ϊ
    ('ϋ', ['υ', '̈']),  -- ϋ
    ('Ϊ', ['Ι', '̈']),  -- Ϊ
    ('Ϋ', ['Υ', '̈']),  -- Ϋ
    ('ΐ', ['ι', '̈', '́']),  -- ΐ
    ('ΰ', ['υ', '̈', '́']) ] -- ΰ

/-- Full canonical decomposition of one character (identity off the table). -/
def decomp (c : Char) : List Char :=
  match decompTable.find? (fun e => e.1 == c) with
  | some e => e.2
  | none => [c]

/-- The `Mn` (nonspacing mark) category test of `unicodedata.category`,
restricted to the Greek combining marks. -/
def isMn (c : Char) : Bool :=
  c = '̀' || c = '́' || c = '̈' || c = '͂' ||
  c = '̓' || c = '̔' || c = 'ͅ'

/-- NFD: canonical decomposition of a string. -/
def nfd (l : List Char) : List Char := l.flatMap decomp

/-- Primary composites: pairs (starter, combining mark) that recombine under
canonical composition on this repertoire. -/
def composeTable : List ((Char × Char) × Char) :=
  [ (('α', '́'), 'ά'),
    (('ε', '́'), 'έ'),
    (('η', '́'), 'ή'),
    (('ι', '́'), 'ί'),
    (('ο', '́'), 'ό'),
    (('υ', '́'), 'ύ'),
    (('ω', '́'), 'ώ'),
    (('Α', '́'), 'Ά'),
    (('Ε', '́'), 'Έ'),
    (('Η', '́'), 'Ή'),
    (('Ι', '́'), 'Ί'),
    (('Ο', '́'), 'Ό'),
    (('Υ', '́'), 'Ύ'),
    (('Ω', '́'), 'Ώ'),
    (('ι', '̈'), 'ϊ'),
    (('υ', '̈'), 'ϋ'),
    (('Ι', '̈'), 'Ϊ'),
    (('Υ', '̈'), 'Ϋ'),
    (('ϊ', '́'), 'ΐ'),
    (('ϋ', '́'), 'ΰ') ]

/-- Pairwise canonical composition step. -/
def combine2 (a b : Char) : Option Char :=
  (composeTable.find? (fun e => e.1.1 == a && e.1.2 == b)).map (fun e => e.2)

/-- Canonical composition pass (fuel-indexed so that it is structural;
`composeChars` supplies enough fuel). -/
def composeAux : Nat → List Char → List Char
  | _, [] => []
  | 0, l => l
  | _ + 1, [a] => [a]
  | n + 1, a :: b :: rest =>
    match combine2 a b with
    | some c => composeAux n (c :: rest)
    | none => a :: composeAux n (b :: rest)

/-- Canonical composition of a string. -/
def composeChars (l : List Char) : List Char := composeAux l.length l

/-- NFC: canonical decomposition followed by canonical composition. -/
def nfc (l : List Char) : List Char := composeChars (nfd l)

/-- `GreekTextProcessor.normalize_unicode`: NFD then NFC
(`if not text: return ""` guard included). -/
def normalize_unicode (l : List Char) : List Char :=
  if l = [] then [] else nfc (nfd l)

/-- Drop the nonspacing marks of a string (the generator-expression filter in
`remove_accents`). -/
def filterMn (l : List Char) : List Char := l.filter (fun c => !(isMn c))

/-- `GreekTextProcessor._handle_final_sigma` and `str.replace("ς", "σ")`:
map every final sigma to a medial sigma. -/
def sigmaToMedial (l : List Char) : List Char :=
  l.map (fun c => if c = 'ς' then 'σ' else c)

/-- `GreekTextProcessor.remove_accents`: NFD, drop `Mn` characters, fold final
sigma, then NFC. -/
def remove_accents (l : List Char) : List Char :=
  if l = [] then [] else nfc (sigmaToMedial (filterMn (nfd l)))

/-- Python `str.isspace` restricted to ASCII whitespace. -/
def pySpace (c : Char) : Bool :=
  c = ' ' || c = '\t' || c = '\n' || c = '\r' || c = '\x0b' || c = '\x0c'

/-- Python `str.strip()`: drop whitespace from both ends. -/
def pstrip (l : List Char) : List Char :=
  ((l.dropWhile pySpace).reverse.dropWhile pySpace).reverse

/-- Python `str.lower` on the repertoire: ASCII letters and Greek capitals.
`Σ` is mapped to `σ` uniformly; the divergence from Python's context-sensitive
Final_Sigma rule is immaterial here because every caller folds `ς` to `σ`
immediately afterwards. -/
def lowerTable : List (Char × Char) :=
  [ ('A', 'a'), ('B', 'b'), ('C', 'c'), ('D', 'd'), ('E', 'e'), ('F', 'f'),
    ('G', 'g'), ('H', 'h'), ('I', 'i'), ('J', 'j'), ('K', 'k'), ('L', 'l'),
    ('M', 'm'), ('N', 'n'), ('O', 'o'), ('P', 'p'), ('Q', 'q'), ('R', 'r'),
    ('S', 's'), ('T', 't'), ('U', 'u'), ('V', 'v'), ('W', 'w'), ('X', 'x'),
    ('Y', 'y'), ('Z', 'z'),
    ('Α', 'α'), ('Β', 'β'), ('Γ', 'γ'), ('Δ', 'δ'), ('Ε', 'ε'), ('Ζ', 'ζ'),
    ('Η', 'η'), ('Θ', 'θ'), ('Ι', 'ι'), ('Κ', 'κ'), ('Λ', 'λ'), ('Μ', 'μ'),
    ('Ν', 'ν'), ('Ξ', 'ξ'), ('Ο', 'ο'), ('Π', 'π'), ('Ρ', 'ρ'), ('Σ', 'σ'),
    ('Τ', 'τ'), ('Υ', 'υ'), ('Φ', 'φ'), ('Χ', 'χ'), ('Ψ', 'ψ'), ('Ω', 'ω'),
    ('Ά', 'ά'), ('Έ', 'έ'), ('Ή', 'ή'),
    ('Ί', 'ί'), ('Ό', 'ό'), ('Ύ', 'ύ'),
    ('Ώ', 'ώ'), ('Ϊ', 'ϊ'), ('Ϋ', 'ϋ') ]

/-- Lowercase one character. -/
def lowerChar (c : Char) : Char :=
  match lowerTable.find? (fun e => e.1 == c) with
  | some e => e.2
  | none => c

/-- Python `str.lower()` on a string. -/
def lowerStr (l : List Char) : List Char := l.map lowerChar

/-- `normalize_lemma` from `greek_conjugation_generator.py`:
`normalize_unicode(text).strip().lower()`, then `remove_accents`, then
`replace("ς", "σ")`. -/
def normalize_lemma (l : List Char) : List Char :=
  if l = [] then []
  else sigmaToMedial (remove_accents (lowerStr (pstrip (normalize_unicode l))))

/-! ### Conjugation classes (`greek_conjugation_classes.py`) -/

/-- A conjugation class: ending tables indexed by tense then voice
(association lists mirror the Python dict literals, in insertion order). -/
structure ConjugationClass where
  class_id : String
  description : String
  endings : List (String × List (String × List (List Char)))
  use_augment : Bool := true
  deriving DecidableEq, Repr

/-- `_core_endings_group_a`. -/
def core_endings_group_a : List (String × List (String × List (List Char))) :=
  [ ("present",
      [ ("active", [g "ω", g "εις", g "ει", g "ουμε", g "ετε", g "ουν"]),
        ("passive", [g "ομαι", g "εσαι", g "εται", g "ομαστε", g "εστε", g "ονται"]) ]),
    ("imperfect",
      [ ("active", [g "α", g "ες", g "ε", g "αμε", g "ατε", g "αν"]),
        ("passive", [g "ομουν", g "οσουν", g "οταν", g "ομασταν", g "οσασταν", g "ονταν"]) ]),
    ("aorist",
      [ ("active", [g "σα", g "σες", g "σε", g "σαμε", g "σατε", g "σαν"]),
        ("passive", [g "θηκα", g "θηκες", g "θηκε", g "θηκαμε", g "θηκατε", g "θηκαν"]) ]),
    ("future",
      [ ("active", [g "ω", g "εις", g "ει", g "ουμε", g "ετε", g "ουν"]),
        ("passive", [g "ω", g "εις", g "ει", g "ουμε", g "ετε", g "ουν"]) ]) ]

/-- `_core_endings_group_b1`. -/
def core_endings_group_b1 : List (String × List (String × List (List Char))) :=
  [ ("present",
      [ ("active", [g "ω", g "ας", g "α", g "αμε", g "ατε", g "ουν"]),
        ("passive", [g "ιεμαι", g "ιεσαι", g "ιεται", g "ιομαστε", g "ιεστε", g "ιουνται"]) ]),
    ("imperfect",
      [ ("active", [g "αγα", g "αγες", g "αγε", g "αγαμε", g "αγατε", g "αγαν"]),
        ("passive", [g "ιομουν", g "ιοσουν", g "ιοταν", g "ιομασταν", g "ιοσασταν", g "ιονταν"]) ]),
    ("aorist",
      [ ("active", [g "ησα", g "ησες", g "ησε", g "ησαμε", g "ησατε", g "ησαν"]),
        ("passive", [g "ηθηκα", g "ηθηκες", g "ηθηκε", g "ηθηκαμε", g "ηθηκατε", g "ηθηκαν"]) ]),
    ("future",
      [ ("active", [g "ω", g "ας", g "α", g "αμε", g "ατε", g "ουν"]),
        ("passive", [g "ω", g "εις", g "ει", g "ουμε", g "ετε", g "ουν"]) ]) ]

/-- `_core_endings_group_b2`. -/
def core_endings_group_b2 : List (String × List (String × List (List Char))) :=
  [ ("present",
      [ ("active", [g "ω", g "εις", g "ει", g "ουμε", g "ετε", g "ουν"]),
        ("passive", [g "ουμαι", g "εισαι", g "ειται", g "ουμαστε", g "ειστε", g "ουνται"]) ]),
    ("imperfect",
      [ ("active", [g "ουσα", g "ουσες", g "ουσε", g "ουσαμε", g "ουσατε", g "ουσαν"]),
        ("passive", [g "ουμουν", g "ουσουν", g "ουταν", g "ουμασταν", g "ουσασταν", g "ουνταν"]) ]),
    ("aorist",
      [ ("active", [g "ησα", g "ησες", g "ησε", g "ησαμε", g "ησατε", g "ησαν"]),
        ("passive", [g "ηθηκα", g "ηθηκες", g "ηθηκε", g "ηθηκαμε", g "ηθηκατε", g "ηθηκαν"]) ]),
    ("future",
      [ ("active", [g "ω", g "εις", g "ει", g "ουμε", g "ετε", g "ουν"]),
        ("passive", [g "ω", g "εις", g "ει", g "ουμε", g "ετε", g "ουν"]) ]) ]

/-- `CONJUGATION_CLASSES`. -/
def CONJUGATION_CLASSES : List (String × ConjugationClass) :=
  [ ("A", { class_id := "A", description := "Group A", endings := core_endings_group_a }),
    ("B1", { class_id := "B1", description := "Group B1", endings := core_endings_group_b1 }),
    ("B2", { class_id := "B2", description := "Group B2", endings := core_endings_group_b2 }) ]

/-- `get_conjugation_class`; `none` models the `ValueError` raised for an
unknown class id. -/
def get_conjugation_class (class_id : String) : Option ConjugationClass :=
  (CONJUGATION_CLASSES.find? (fun e => e.1 == class_id)).map (fun e => e.2)

/-! ### Form generation (`greek_conjugation_generator.py`) -/

/-- `PERSON_NUMBER`. -/
def PERSON_NUMBER : List (String × String) :=
  [ ("1st", "singular"), ("2nd", "singular"), ("3rd", "singular"),
    ("1st", "plural"), ("2nd", "plural"), ("3rd", "plural") ]

/-- Python-dict access `d.get(k, "")` on a string-keyed association list. -/
def dict_get (d : List (String × List Char)) (k : String) : List Char :=
  match d.find? (fun e => e.1 == k) with
  | some e => e.2
  | none => []

/-- Python `dict.setdefault(k, v)`: insert only when the key is absent. -/
def dict_setdefault (d : List (String × List Char)) (k : String) (v : List Char) :
    List (String × List Char) :=
  if (d.find? (fun e => e.1 == k)).isSome then d else d ++ [(k, v)]

/-- `VerbLexiconEntry` (the `lemma` field is named `lemmaText` because `lemma`
is a reserved word in Lean). -/
structure VerbLexiconEntry where
  lemmaText : List Char
  class_id : String
  stems : List (String × List Char)
  aorist_type : Option String := none
  use_augment : Option Bool := none
  notes : Option String := none
  provenance : Option String := none
  deriving DecidableEq, Repr

/-- `derive_stems_fallback`. -/
def derive_stems_fallback (lem : List Char) : List (String × List Char) :=
  let base :=
    if (g "ομαι").isSuffixOf lem then lem.take (lem.length - 4)
    else if (g "μαι").isSuffixOf lem then lem.take (lem.length - 3)
    else if (g "ώ").isSuffixOf lem then lem.take (lem.length - 1)
    else if (g "ω").isSuffixOf lem then lem.take (lem.length - 1)
    else lem
  [("imperfective", base), ("perfective_active", base), ("perfective_passive", base)]

/-- `VOWEL_RE.match(stem)`: does the stem start with a Greek vowel? -/
def starts_with_vowel (l : List Char) : Bool :=
  match l with
  | [] => false
  | c :: _ => (g "αεηιουωάέήίόύώ").contains c

/-- `apply_augment`. -/
def apply_augment (stem : List Char) : List Char :=
  if stem = [] then stem
  else if starts_with_vowel stem then stem
  else 'ε' :: stem

/-- Lookahead of the regex `σ(?=$|\s|[.,;:!?])`: end of string, whitespace or
the listed punctuation. -/
def sigmaBoundary : List Char → Bool
  | [] => true
  | d :: _ => pySpace d || (g ".,;:!?").contains d

/-- `apply_final_sigma`: rewrite `σ` to `ς` before a word boundary. -/
def apply_final_sigma : List Char → List Char
  | [] => []
  | c :: rest =>
    (if c = 'σ' && sigmaBoundary rest then 'ς' else c) :: apply_final_sigma rest

/-- `_adjust_aorist_ending` (leading underscore dropped). -/
def adjust_aorist_ending (entry : VerbLexiconEntry) (ending : List Char) : List Char :=
  if entry.aorist_type = some "sigmatic" && (g "σ").isPrefixOf ending then ending.drop 1
  else ending

/-- `_adjust_passive_aorist_ending` (leading underscore dropped). -/
def adjust_passive_aorist_ending (stem ending : List Char) : List Char :=
  if (g "τ").isSuffixOf stem && (g "θη").isPrefixOf ending then g "τη" ++ ending.drop 2
  else if (g "τ").isSuffixOf stem && (g "τη").isPrefixOf ending then ending.drop 1
  else ending

/-- Morphology record attached to every generated form. -/
structure Morphology where
  class_id : String
  stems : List (String × List Char)
  aorist_type : Option String
  use_augment : Bool
  override : Option String := none
  deriving DecidableEq, Repr

/-- One generated form (the dict appended by `build_forms`). -/
structure GeneratedForm where
  tense : String
  mood : String
  voice : String
  person : String
  number : String
  form : List Char
  morphology : Morphology
  deriving DecidableEq, Repr

/-- Stem-slot resolution at the top of `build_forms`: the local `stems` dict
always carries all three keys, so the `setdefault` loop over
`derive_stems_fallback` never inserts anything. -/
def resolved_stems (entry : VerbLexiconEntry) : List (String × List Char) :=
  let s := [("imperfective", dict_get entry.stems "imperfective"),
            ("perfective_active", dict_get entry.stems "perfective_active"),
            ("perfective_passive", dict_get entry.stems "perfective_passive")]
  if dict_get s "imperfective" = [] ∨ dict_get s "perfective_active" = [] ∨
      dict_get s "perfective_passive" = [] then
    (derive_stems_fallback entry.lemmaText).foldl
      (fun d kv => dict_setdefault d kv.1 kv.2) s
  else s

/-- The body of the innermost loop of `build_forms` (lines 161-203): build the
form dict for one (tense, voice, person, number, ending) slot. -/
def build_slot (entry : VerbLexiconEntry) (stems : List (String × List Char))
    (useAug : Bool) (tense voice person number : String) (ending : List Char) :
    GeneratedForm :=
  let stem :=
    if tense = "present" ∨ tense = "imperfect" then dict_get stems "imperfective"
    else if tense = "aorist" then
      (if voice = "passive" then dict_get stems "perfective_passive"
       else dict_get stems "perfective_active")
    else if tense = "future" then
      (if voice = "passive" then dict_get stems "perfective_passive"
       else dict_get stems "perfective_active")
    else dict_get stems "imperfective"
  let adjusted1 :=
    if tense = "aorist" ∧ voice = "active" then adjust_aorist_ending entry ending
    else ending
  let adjusted :=
    if tense = "aorist" ∧ voice = "passive" then adjust_passive_aorist_ending stem adjusted1
    else adjusted1
  let stem_for_form :=
    if tense = "aorist" ∧ voice = "passive" ∧
        (g "τ").isSuffixOf stem ∧ (g "τη").isPrefixOf adjusted then stem.dropLast
    else stem
  let form0 := stem_for_form ++ adjusted
  let form1 :=
    if (tense = "imperfect" ∨ tense = "aorist") ∧ useAug then
      apply_augment stem_for_form ++ adjusted
    else form0
  let form2 := if tense = "future" then g "θα " ++ form1 else form1
  { tense := tense, mood := "indicative", voice := voice, person := person,
    number := number, form := apply_final_sigma form2,
    morphology := { class_id := entry.class_id, stems := stems,
                    aorist_type := entry.aorist_type, use_augment := useAug } }

/-- `build_forms`; `none` models the `ValueError` of `get_conjugation_class`
for an unknown class id. -/
def build_forms (entry : VerbLexiconEntry) : Option (List GeneratedForm) :=
  match get_conjugation_class entry.class_id with
  | none => none
  | some cls =>
    let stems := resolved_stems entry
    let useAug := entry.use_augment.getD cls.use_augment
    some (cls.endings.flatMap fun tv =>
      tv.2.flatMap fun ve =>
        (PERSON_NUMBER.zip ve.2).map fun pe =>
          build_slot entry stems useAug tv.1 ve.1 pe.1.1 pe.1.2 pe.2)

/-! ### Irregular overrides and the pipeline -/

/-- The two override fields read by `apply_irregular_overrides` from an
irregulars record (`irregular.get("aorist_active"/"aorist_passive")`);
`none` models an absent key. -/
structure IrregularEntry where
  aorist_active : Option (List Char) := none
  aorist_passive : Option (List Char) := none
  deriving DecidableEq, Repr

/-- The (tense, voice, person, number) key of a form. -/
def slot_key (f : GeneratedForm) : String × String × String × String :=
  (f.tense, f.voice, f.person, f.number)

/-- The `overrides` dict lookup of `apply_irregular_overrides`. -/
def override_for (irr : IrregularEntry) (key : String × String × String × String) :
    Option (List Char) :=
  if key = ("aorist", "active", "1st", "singular") then irr.aorist_active
  else if key = ("aorist", "passive", "1st", "singular") then irr.aorist_passive
  else none

/-- The truthiness-plus-dash guard
`replacement and replacement != "–" and replacement != "-"`. -/
def override_applies (r : Option (List Char)) : Bool :=
  match r with
  | some s => !(s == []) && !(s == g "–") && !(s == g "-")
  | none => false

/-- The loop body of `apply_irregular_overrides` for one form: overwrite the
surface string and tag the morphology when the override lookup yields a
non-empty, non-dash replacement. -/
def override_step (irr : IrregularEntry) (f : GeneratedForm) : GeneratedForm :=
  match override_for irr (slot_key f) with
  | some r =>
    if r ≠ [] ∧ r ≠ g "–" ∧ r ≠ g "-" then
      { f with form := r,
               morphology := { f.morphology with override := some "philologist_irregulars" } }
    else f
  | none => f

/-- `apply_irregular_overrides`; `none` models a missing/falsy irregulars
record (`if not irregular: return forms`). -/
def apply_irregular_overrides (forms : List GeneratedForm) :
    Option IrregularEntry → List GeneratedForm
  | none => forms
  | some irr => forms.map (override_step irr)

/-- The lexicon-lookup-or-fallback step of `generate_conjugations`
(lines 230-238). -/
def lookup_or_fallback (lem : List Char)
    (lexicon : List (List Char × VerbLexiconEntry)) : VerbLexiconEntry :=
  match (lexicon.find? (fun e => e.1 == normalize_lemma lem)).map (fun e => e.2) with
  | some e => e
  | none =>
    { lemmaText := lem, class_id := "A", stems := derive_stems_fallback lem,
      notes := some "fallback_lexicon" }

/-- `generate_conjugations`. -/
def generate_conjugations (lem : List Char)
    (lexicon : List (List Char × VerbLexiconEntry))
    (irregulars : List (List Char × IrregularEntry)) : Option (List GeneratedForm) :=
  (build_forms (lookup_or_fallback lem lexicon)).map fun forms =>
    apply_irregular_overrides forms
      ((irregulars.find? (fun e => e.1 == normalize_lemma lem)).map (fun e => e.2))

/-! ### Validation, similarity and transliteration (`greek_text.py`) -/

/-- Membership of a code point in the two Greek Unicode ranges
(`GREEK_BASIC_RANGE`, `GREEK_EXTENDED_RANGE`). -/
def is_greek_char (c : Char) : Bool :=
  (0x0370 ≤ c.toNat && c.toNat ≤ 0x03FF) || (0x1F00 ≤ c.toNat && c.toNat ≤ 0x1FFF)

/-- `GreekTextProcessor.is_greek_text`. -/
def is_greek_text (l : List Char) : Bool := l.any is_greek_char

/-- The `unicodedata.category(char).startswith('P')` test, modelled for the
punctuation characters of the repertoire. -/
def is_punct_cat (c : Char) : Bool :=
  (g ".,;:!?·;«»()[]{}-—–'\"…").contains c

/-- `GreekTextProcessor._has_latin_characters`. -/
def has_latin_characters (l : List Char) : Bool :=
  l.any (fun c => (0x41 ≤ c.toNat && c.toNat ≤ 0x5A) || (0x61 ≤ c.toNat && c.toNat ≤ 0x7A))

/-- `GreekTextProcessor._find_invalid_characters`: characters that are not
whitespace, Greek, basic Latin or punctuation, without duplicates. -/
def find_invalid_characters (l : List Char) : List Char :=
  l.foldl
    (fun acc c =>
      if pySpace c then acc
      else if is_greek_char c then acc
      else if 0x20 ≤ c.toNat && c.toNat ≤ 0x7F then acc
      else if is_punct_cat c then acc
      else if acc.contains c then acc
      else acc ++ [c])
    []

/-- The result dict of `validate_greek_input` (`error` is `none` on the keyed
success dict, which carries no `error` entry). -/
structure ValidationResult where
  valid : Bool
  error : Option String := none
  normalized : List Char := []
  has_greek : Bool := false
  character_count : Nat := 0
  invalid_characters : List Char := []
  warnings : List String := []
  deriving DecidableEq, Repr

/-- `GreekTextProcessor.validate_greek_input`.  The `try` body is total on
this model, so the `except` branch (which would also return
`valid = False`) is unreachable. -/
def validate_greek_input (text : List Char) : ValidationResult :=
  if text = [] then
    { valid := false, error := some "Empty text" }
  else
    let normalized := normalize_unicode (pstrip text)
    let hg := is_greek_text normalized
    let cc := (normalized.filter (fun c => !(c == ' '))).length
    let inv := find_invalid_characters normalized
    let w1 := if hg && has_latin_characters normalized then
        ["Mixed Greek and Latin characters detected"] else []
    let w2 := if 200 < cc then ["Text is unusually long"] else []
    { valid := true, normalized := normalized, has_greek := hg,
      character_count := cc, invalid_characters := inv, warnings := w1 ++ w2 }

/-- The longest-common-subsequence recurrence computed by the DP table of
`_calculate_lcs_similarity` (`dp[i][j] = dp[i-1][j-1] + 1` on a character
match, else `max(dp[i-1][j], dp[i][j-1])`), fuel-indexed so that it is
structural; `lcs_length` supplies enough fuel. -/
def lcsLenAux : Nat → List Char → List Char → Nat
  | _, [], _ => 0
  | _, _ :: _, [] => 0
  | 0, _ :: _, _ :: _ => 0
  | n + 1, a :: as, b :: bs =>
    if a = b then lcsLenAux n as bs + 1
    else max (lcsLenAux n (a :: as) bs) (lcsLenAux n as (b :: bs))

/-- The value `dp[m][n]` of the DP table. -/
def lcs_length (t1 t2 : List Char) : Nat :=
  lcsLenAux (t1.length + t2.length) t1 t2

/-- `GreekTextProcessor._calculate_lcs_similarity` (float arithmetic modelled
exactly in `ℚ`). -/
def calculate_lcs_similarity (t1 t2 : List Char) : ℚ :=
  if t1 = [] ∨ t2 = [] then 0
  else if 0 < max t1.length t2.length then
    (lcs_length t1 t2 : ℚ) / ((max t1.length t2.length : ℕ) : ℚ)
  else 0

/-- The cleaning step of `get_similarity_score`:
`remove_accents(normalize_unicode(text.lower().strip()))`. -/
def clean_for_similarity (t : List Char) : List Char :=
  remove_accents (normalize_unicode (pstrip (lowerStr t)))

/-- `GreekTextProcessor.get_similarity_score`. -/
def get_similarity_score (t1 t2 : List Char) : ℚ :=
  if t1 = [] ∧ t2 = [] then 1
  else if t1 = [] ∨ t2 = [] then 0
  else if clean_for_similarity t1 = clean_for_similarity t2 then 1
  else calculate_lcs_similarity (clean_for_similarity t1) (clean_for_similarity t2)

/-- `TRANSLITERATION_MAP`, in dict insertion order. -/
def TRANSLITERATION_MAP : List (List Char × List Char) :=
  [ (g "a", g "α"), (g "e", g "ε"), (g "i", g "ι"), (g "o", g "ο"), (g "u", g "υ"),
    (g "A", g "Α"), (g "E", g "Ε"), (g "I", g "Ι"), (g "O", g "Ο"), (g "U", g "Υ"),
    (g "ai", g "αι"), (g "au", g "αυ"), (g "ei", g "ει"), (g "eu", g "ευ"),
    (g "oi", g "οι"), (g "ou", g "ου"), (g "ui", g "υι"),
    (g "Ai", g "Αι"), (g "Au", g "Αυ"), (g "Ei", g "Ει"), (g "Eu", g "Ευ"),
    (g "Oi", g "Οι"), (g "Ou", g "Ου"), (g "Ui", g "Υι"),
    (g "b", g "β"), (g "g", g "γ"), (g "d", g "δ"), (g "z", g "ζ"),
    (g "th", g "θ"), (g "k", g "κ"), (g "l", g "λ"), (g "m", g "μ"),
    (g "n", g "ν"), (g "x", g "ξ"), (g "p", g "π"), (g "r", g "ρ"),
    (g "s", g "σ"), (g "t", g "τ"), (g "f", g "φ"), (g "ch", g "χ"),
    (g "ps", g "ψ"), (g "w", g "ω"),
    (g "B", g "Β"), (g "G", g "Γ"), (g "D", g "Δ"), (g "Z", g "Ζ"),
    (g "Th", g "Θ"), (g "K", g "Κ"), (g "L", g "Λ"), (g "M", g "Μ"),
    (g "N", g "Ν"), (g "X", g "Ξ"), (g "P", g "Π"), (g "R", g "Ρ"),
    (g "S", g "Σ"), (g "T", g "Τ"), (g "F", g "Φ"), (g "Ch", g "Χ"),
    (g "Ps", g "Ψ"), (g "W", g "Ω"),
    (g "h", g "η"), (g "H", g "Η"), (g "y", g "υ"), (g "Y", g "Υ"),
    (g "c", g "κ"), (g "C", g "Κ"), (g "j", g "ι"), (g "J", g "Ι"),
    (g "v", g "β"), (g "V", g "Β"), (g "q", g "κ"), (g "Q", g "Κ") ]

/-- `sorted(TRANSLITERATION_MAP.items(), key=len, reverse=True)` with Python's
stable sort: the two-character keys in insertion order, then the
one-character keys in insertion order. -/
def sorted_mappings : List (List Char × List Char) :=
  [ (g "ai", g "αι"), (g "au", g "αυ"), (g "ei", g "ει"), (g "eu", g "ευ"),
    (g "oi", g "οι"), (g "ou", g "ου"), (g "ui", g "υι"),
    (g "Ai", g "Αι"), (g "Au", g "Αυ"), (g "Ei", g "Ει"), (g "Eu", g "Ευ"),
    (g "Oi", g "Οι"), (g "Ou", g "Ου"), (g "Ui", g "Υι"),
    (g "th", g "θ"), (g "ch", g "χ"), (g "ps", g "ψ"),
    (g "Th", g "Θ"), (g "Ch", g "Χ"), (g "Ps", g "Ψ"),
    (g "a", g "α"), (g "e", g "ε"), (g "i", g "ι"), (g "o", g "ο"), (g "u", g "υ"),
    (g "A", g "Α"), (g "E", g "Ε"), (g "I", g "Ι"), (g "O", g "Ο"), (g "U", g "Υ"),
    (g "b", g "β"), (g "g", g "γ"), (g "d", g "δ"), (g "z", g "ζ"),
    (g "k", g "κ"), (g "l", g "λ"), (g "m", g "μ"), (g "n", g "ν"),
    (g "x", g "ξ"), (g "p", g "π"), (g "r", g "ρ"), (g "s", g "σ"),
    (g "t", g "τ"), (g "f", g "φ"), (g "w", g "ω"),
    (g "B", g "Β"), (g "G", g "Γ"), (g "D", g "Δ"), (g "Z", g "Ζ"),
    (g "K", g "Κ"), (g "L", g "Λ"), (g "M", g "Μ"), (g "N", g "Ν"),
    (g "X", g "Ξ"), (g "P", g "Π"), (g "R", g "Ρ"), (g "S", g "Σ"),
    (g "T", g "Τ"), (g "F", g "Φ"), (g "W", g "Ω"),
    (g "h", g "η"), (g "H", g "Η"), (g "y", g "υ"), (g "Y", g "Υ"),
    (g "c", g "κ"), (g "C", g "Κ"), (g "j", g "ι"), (g "J", g "Ι"),
    (g "v", g "β"), (g "V", g "Β"), (g "q", g "κ"), (g "Q", g "Κ") ]

/-- Python `str.replace(pat, rep)`: replace every non-overlapping occurrence,
left to right (fuel-indexed so that it is structural; `str_replace` supplies
enough fuel; the empty-pattern case never arises from the maps used here). -/
def replaceAux (pat rep : List Char) : Nat → List Char → List Char
  | _, [] => []
  | 0, l => l
  | n + 1, c :: rest =>
    if pat ≠ [] ∧ pat.isPrefixOf (c :: rest) then
      rep ++ replaceAux pat rep n ((c :: rest).drop pat.length)
    else c :: replaceAux pat rep n rest

/-- Python `str.replace` (identity on an empty pattern, which never occurs). -/
def str_replace (s pat rep : List Char) : List Char :=
  if pat = [] then s else replaceAux pat rep s.length s

/-- `GreekTextProcessor.transliterate_to_greek`: fold the length-sorted
replacements over the input. -/
def transliterate_to_greek (l : List Char) : List Char :=
  if l = [] then []
  else sorted_mappings.foldl (fun res kv => str_replace res kv.1 kv.2) l

/-! ### Auxiliary definitions used by the claim statements -/

/-- The (tense, voice, person, number) slots `build_forms` iterates over, in
iteration order: 4 tenses × 2 voices × the 6 `PERSON_NUMBER` pairs. -/
def canonical_slot_keys : List (String × String × String × String) :=
  ["present", "imperfect", "aorist", "future"].flatMap fun t =>
    ["active", "passive"].flatMap fun v =>
      PERSON_NUMBER.map fun pn => (t, v, pn.1, pn.2)

/-- A regular class-A lexicon entry (γράφω) used as concrete input. -/
def entry_grafo : VerbLexiconEntry :=
  { lemmaText := g "γραφω", class_id := "A",
    stems := [("imperfective", g "γραφ"), ("perfective_active", g "γραψ"),
              ("perfective_passive", g "γραφτ")],
    aorist_type := some "sigmatic" }

/-- A class-A entry with an empty stems dict, so every slot is missing. -/
def entry_empty_stems : VerbLexiconEntry :=
  { lemmaText := g "γραφω", class_id := "A", stems := [] }

/-- A class-A entry (χτίζω) whose perfective passive stem ends in `τ`. -/
def entry_xtizo : VerbLexiconEntry :=
  { lemmaText := g "χτιζω", class_id := "A",
    stems := [("imperfective", g "χτιζ"), ("perfective_active", g "χτισ"),
              ("perfective_passive", g "χτιστ")],
    aorist_type := some "sigmatic" }

/-- Modelled from the spec: the aorist-passive surface as claim C3 describes
it — when the stem ends in `τ` and the ending begins with `θη`, the ending's
`θη` becomes `τη` and *the stem is used unchanged*; when the ending already
begins with `τη`, *the stem's trailing `τ` is dropped* and the ending kept. -/
def claim_C3_spec_surface (stem ending : List Char) (useAug : Bool) : List Char :=
  if (g "τ").isSuffixOf stem && (g "θη").isPrefixOf ending then
    apply_final_sigma ((if useAug then apply_augment stem else stem) ++
      (g "τη" ++ ending.drop 2))
  else if (g "τ").isSuffixOf stem && (g "τη").isPrefixOf ending then
    apply_final_sigma ((if useAug then apply_augment stem.dropLast else stem.dropLast) ++
      ending)
  else
    apply_final_sigma ((if useAug then apply_augment stem else stem) ++ ending)

/-- Does an optional override string avoid a trailing non-final sigma? -/
def no_trailing_sigma (r : Option (List Char)) : Bool :=
  match r with
  | some s => !(s.getLast? == some 'σ')
  | none => true

/-- Two sample generated forms used as concrete inputs for the override
frame-condition claim. -/
def sample_form_aor : GeneratedForm :=
  { tense := "aorist", mood := "indicative", voice := "active", person := "1st",
    number := "singular", form := g "εγραψα",
    morphology := { class_id := "A", stems := [], aorist_type := none,
                    use_augment := true } }

/-- A present-tense sample form (untouched by overrides). -/
def sample_form_pres : GeneratedForm :=
  { tense := "present", mood := "indicative", voice := "active", person := "2nd",
    number := "singular", form := g "γραφεις",
    morphology := { class_id := "A", stems := [], aorist_type := none,
                    use_augment := true } }

/-! ### Theorems -/

/-- Sanity check tying the hand-sorted replacement list to the source dict:
it is a permutation of `TRANSLITERATION_MAP`. -/
theorem sorted_mappings_perm : sorted_mappings.Perm TRANSLITERATION_MAP := by
  decide

/-- Characters of `replaceAux pat rep n l` satisfy any predicate satisfied by
the characters of `rep` and of `l`. -/
theorem replaceAux_pres (P : Char → Prop) (pat rep : List Char)
    (hrep : ∀ c ∈ rep, P c) :
    ∀ n l, (∀ c ∈ l, P c) → ∀ c ∈ replaceAux pat rep n l, P c := by
  intro n
  induction n with
  | zero =>
    intro l hl c hc
    cases l with
    | nil => simp [replaceAux] at hc
    | cons a t => exact hl c hc
  | succ n ih =>
    intro l hl c hc
    cases l with
    | nil => simp [replaceAux] at hc
    | cons a t =>
      rw [replaceAux] at hc
      by_cases hp : pat ≠ [] ∧ pat.isPrefixOf (a :: t)
      · rw [if_pos hp] at hc
        rcases List.mem_append.1 hc with h | h
        · exact hrep c h
        · exact ih _ (fun d hd => hl d (List.mem_of_mem_drop hd)) c h
      · rw [if_neg hp] at hc
        rcases List.mem_cons.1 hc with h | h
        · exact h ▸ hl a (List.mem_cons_self a t)
        · exact ih t (fun d hd => hl d (List.mem_cons_of_mem a hd)) c h

/-- Characters of `str_replace s pat rep` satisfy any predicate satisfied by
the characters of `rep` and of `s`. -/
theorem str_replace_pres (P : Char → Prop) (s pat rep : List Char)
    (hrep : ∀ c ∈ rep, P c) (hs : ∀ c ∈ s, P c) :
    ∀ c ∈ str_replace s pat rep, P c := by
  rw [str_replace]
  by_cases hpat : pat = []
  · rw [if_pos hpat]; exact hs
  · rw [if_neg hpat]; exact replaceAux_pres P pat rep hrep s.length s hs

/-- Folding the replacement table preserves any character predicate satisfied
by the input and by every replacement value. -/
theorem foldl_replace_pres (P : Char → Prop) :
    ∀ (ms : List (List Char × List Char)) (l : List Char),
      (∀ kv ∈ ms, ∀ c ∈ kv.2, P c) → (∀ c ∈ l, P c) →
      ∀ c ∈ ms.foldl (fun res kv => str_replace res kv.1 kv.2) l, P c := by
  intro ms
  induction ms with
  | nil => intro l _ hl; exact hl
  | cons kv ms ih =>
    intro l hms hl
    rw [List.foldl_cons]
    exact ih _ (fun kv' h => hms kv' (List.mem_cons_of_mem kv h))
      (str_replace_pres P l kv.1 kv.2 (hms kv (List.mem_cons_self kv ms)) hl)

/-- C10: for every Latin (ASCII) input string, the output of
`transliterate_to_greek` never contains the word-final sigma glyph `ς`: every
Latin `s`, including a word-final one, maps to the medial sigma `σ`. -/
theorem claim_C10_no_final_sigma (l : List Char) (h : ∀ c ∈ l, c.toNat < 0x80) :
    'ς' ∉ transliterate_to_greek l := by
  intro hmem
  rw [transliterate_to_greek] at hmem
  by_cases h0 : l = []
  · rw [if_pos h0] at hmem; simp at hmem
  · rw [if_neg h0] at hmem
    have hvals : ∀ kv ∈ sorted_mappings, ∀ c ∈ kv.2, c ≠ 'ς' := by decide
    have hin : ∀ c ∈ l, c ≠ 'ς' := by
      intro c hc hq
      have := h c hc
      rw [hq] at this
      simp at this
    exact foldl_replace_pres (fun c => c ≠ 'ς') sorted_mappings l hvals hin 'ς' hmem rfl

/-- Witness for C10 at the concrete Latin input "logos": the output is
"λογοσ", whose final letter is the medial sigma. -/
theorem claim_C10_witness :
    (∀ c ∈ g "logos", c.toNat < 0x80) ∧ 'ς' ∉ transliterate_to_greek (g "logos") :=
  ⟨by decide, claim_C10_no_final_sigma (g "logos") (by decide)⟩

/-- C9: `validate_greek_input` marks every non-empty input valid (with no
error), whatever its content; the invalid branch is reached exactly for the
empty string. -/
theorem claim_C9_valid_iff_nonempty (text : List Char) :
    (validate_greek_input text).valid = !text.isEmpty ∧
    (validate_greek_input text).error =
      (if text = [] then some "Empty text" else none) := by
  cases text with
  | nil => constructor <;> rfl
  | cons c rest =>
    have hne : (c :: rest) ≠ ([] : List Char) := by simp
    rw [validate_greek_input, if_neg hne]
    constructor
    · simp
    · rw [if_neg hne]

/-- `apply_irregular_overrides` with a present record is a per-element map. -/
theorem apply_overrides_eq_map (forms : List GeneratedForm) (irr : IrregularEntry) :
    apply_irregular_overrides forms (some irr) = forms.map (override_step irr) := rfl

/-- `override_step` for a slot without an override entry. -/
theorem override_step_none {irr : IrregularEntry} {f : GeneratedForm}
    (hr : override_for irr (slot_key f) = none) : override_step irr f = f := by
  unfold override_step
  rw [hr]

/-- `override_step` for a slot with an override entry, before the dash and
emptiness guard is decided. -/
theorem override_step_some {irr : IrregularEntry} {f : GeneratedForm} {r : List Char}
    (hr : override_for irr (slot_key f) = some r) :
    override_step irr f =
      if r ≠ [] ∧ r ≠ g "–" ∧ r ≠ g "-" then
        { f with form := r,
                 morphology := { f.morphology with
                                 override := some "philologist_irregulars" } }
      else f := by
  unfold override_step
  rw [hr]

/-- Overrides never change the number of forms. -/
theorem apply_overrides_length (forms : List GeneratedForm) :
    ∀ irrOpt, (apply_irregular_overrides forms irrOpt).length = forms.length
  | none => rfl
  | some _ => List.length_map _ _

/-- Overrides never change the `class_id` recorded in a form's morphology. -/
theorem apply_overrides_class_ids (forms : List GeneratedForm) :
    ∀ irrOpt, (apply_irregular_overrides forms irrOpt).map
        (fun f => f.morphology.class_id) =
      forms.map (fun f => f.morphology.class_id)
  | none => rfl
  | some irr => by
    rw [apply_overrides_eq_map, List.map_map]
    apply List.map_congr_left
    intro f _
    simp only [Function.comp]
    cases hr : override_for irr (slot_key f) with
    | none => rw [override_step_none hr]
    | some r =>
      rw [override_step_some hr]
      split <;> rfl

/-- C4: `apply_irregular_overrides` is a frame-preserving update: an absent
record leaves the list unchanged; the length is preserved; a form whose slot
is neither (aorist, active, 1st, singular) nor (aorist, passive, 1st,
singular) is unchanged; a dash or empty replacement is ignored; a genuine
replacement overwrites exactly the surface string and tags the morphology
with the override marker. -/
theorem claim_C4_override_frame (forms : List GeneratedForm) (irr : IrregularEntry)
    (i : Nat) (f : GeneratedForm) (hf : forms.get? i = some f) :
    apply_irregular_overrides forms none = forms ∧
    (apply_irregular_overrides forms (some irr)).length = forms.length ∧
    (slot_key f ≠ ("aorist", "active", "1st", "singular") →
      slot_key f ≠ ("aorist", "passive", "1st", "singular") →
      (apply_irregular_overrides forms (some irr)).get? i = some f) ∧
    (override_for irr (slot_key f) = none →
      (apply_irregular_overrides forms (some irr)).get? i = some f) ∧
    (∀ r, override_for irr (slot_key f) = some r →
      (r = [] ∨ r = g "–" ∨ r = g "-") →
      (apply_irregular_overrides forms (some irr)).get? i = some f) ∧
    (∀ r, override_for irr (slot_key f) = some r →
      r ≠ [] → r ≠ g "–" → r ≠ g "-" →
      (apply_irregular_overrides forms (some irr)).get? i =
        some { f with form := r,
                      morphology := { f.morphology with
                                      override := some "philologist_irregulars" } }) := by
  have hmap : ∀ fn : GeneratedForm → GeneratedForm,
      (forms.map fn).get? i = some (fn f) := by
    intro fn
    rw [List.get?_map, hf, Option.map_some']
  refine ⟨rfl, apply_overrides_length forms (some irr), ?_, ?_, ?_, ?_⟩
  · intro h1 h2
    have hr : override_for irr (slot_key f) = none := by
      rw [override_for, if_neg h1, if_neg h2]
    rw [apply_overrides_eq_map, hmap, override_step_none hr]
  · intro hnone
    rw [apply_overrides_eq_map, hmap, override_step_none hnone]
  · intro r hr hdash
    have hneg : ¬(r ≠ [] ∧ r ≠ g "–" ∧ r ≠ g "-") := by
      rcases hdash with h | h | h <;> simp [h]
    rw [apply_overrides_eq_map, hmap, override_step_some hr, if_neg hneg]
  · intro r hr h1 h2 h3
    rw [apply_overrides_eq_map, hmap, override_step_some hr, if_pos ⟨h1, h2, h3⟩]

/-- Witness for C4 at a concrete two-form list and override record: the
aorist-active slot is overwritten and tagged, the present-tense form is
untouched. -/
theorem claim_C4_witness :
    (apply_irregular_overrides [sample_form_aor, sample_form_pres]
        (some { aorist_active := some (g "ηρθα") })).get? 1 = some sample_form_pres ∧
    (apply_irregular_overrides [sample_form_aor, sample_form_pres]
        (some { aorist_active := some (g "ηρθα") })).get? 0 =
      some { sample_form_aor with
             form := g "ηρθα",
             morphology := { sample_form_aor.morphology with
                             override := some "philologist_irregulars" } } :=
  ⟨(claim_C4_override_frame [sample_form_aor, sample_form_pres]
      { aorist_active := some (g "ηρθα") } 1 sample_form_pres rfl).2.2.1
      (by decide) (by decide),
   (claim_C4_override_frame [sample_form_aor, sample_form_pres]
      { aorist_active := some (g "ηρθα") } 0 sample_form_aor rfl).2.2.2.2.2
      (g "ηρθα") rfl (by decide) (by decide) (by decide)⟩

/-- `build_forms` on a class-A entry, written out. -/
theorem build_forms_eq_A (entry : VerbLexiconEntry) (h : entry.class_id = "A") :
    build_forms entry =
      some (core_endings_group_a.flatMap fun tv =>
        tv.2.flatMap fun ve =>
          (PERSON_NUMBER.zip ve.2).map fun pe =>
            build_slot entry (resolved_stems entry) (entry.use_augment.getD true)
              tv.1 ve.1 pe.1.1 pe.1.2 pe.2) := by
  unfold build_forms
  rw [h]
  rfl

/-- `build_forms` on a class-B1 entry, written out. -/
theorem build_forms_eq_B1 (entry : VerbLexiconEntry) (h : entry.class_id = "B1") :
    build_forms entry =
      some (core_endings_group_b1.flatMap fun tv =>
        tv.2.flatMap fun ve =>
          (PERSON_NUMBER.zip ve.2).map fun pe =>
            build_slot entry (resolved_stems entry) (entry.use_augment.getD true)
              tv.1 ve.1 pe.1.1 pe.1.2 pe.2) := by
  unfold build_forms
  rw [h]
  rfl

/-- `build_forms` on a class-B2 entry, written out. -/
theorem build_forms_eq_B2 (entry : VerbLexiconEntry) (h : entry.class_id = "B2") :
    build_forms entry =
      some (core_endings_group_b2.flatMap fun tv =>
        tv.2.flatMap fun ve =>
          (PERSON_NUMBER.zip ve.2).map fun pe =>
            build_slot entry (resolved_stems entry) (entry.use_augment.getD true)
              tv.1 ve.1 pe.1.1 pe.1.2 pe.2) := by
  unfold build_forms
  rw [h]
  rfl

/-- Every built-in class yields 48 forms covering the canonical slots. -/
theorem build_forms_builtin (entry : VerbLexiconEntry)
    (h : entry.class_id = "A" ∨ entry.class_id = "B1" ∨ entry.class_id = "B2") :
    ∃ fs, build_forms entry = some fs ∧ fs.length = 48 ∧
      fs.map slot_key = canonical_slot_keys := by
  rcases h with h | h | h
  · exact ⟨_, build_forms_eq_A entry h, rfl, rfl⟩
  · exact ⟨_, build_forms_eq_B1 entry h, rfl, rfl⟩
  · exact ⟨_, build_forms_eq_B2 entry h, rfl, rfl⟩

/-- C1 counterexample: on a concrete class-A entry, `build_forms` returns 48
forms, so the asserted count of exactly 24 is false. -/
theorem claim_C1_counterexample :
    (build_forms entry_grafo).map List.length = some 48 ∧
    (((build_forms entry_grafo).map List.length) == some 24) = false := by
  constructor <;> decide

/-- C1 (amended): for every entry of a built-in class (A, B1, B2),
`build_forms` returns exactly 48 GeneratedForm records — one per slot of
4 tenses × 2 voices × the 6 canonical (person, number) pairs. -/
theorem claim_C1_form_count (entry : VerbLexiconEntry)
    (h : entry.class_id = "A" ∨ entry.class_id = "B1" ∨ entry.class_id = "B2") :
    ∃ fs, build_forms entry = some fs ∧ fs.length = 48 ∧
      fs.map slot_key = canonical_slot_keys :=
  build_forms_builtin entry h

/-- Witness for C1 at the concrete entry `entry_grafo`. -/
theorem claim_C1_witness :
    (entry_grafo.class_id = "A" ∨ entry_grafo.class_id = "B1" ∨
      entry_grafo.class_id = "B2") ∧
    ∃ fs, build_forms entry_grafo = some fs ∧ fs.length = 48 ∧
      fs.map slot_key = canonical_slot_keys :=
  ⟨Or.inl rfl, claim_C1_form_count entry_grafo (Or.inl rfl)⟩

/-- C2: the stem fallback of `build_forms` is dead code.  On an entry whose
stems dict is empty, `derive_stems_fallback` would produce the base `γραφ`
from the lemma `γραφω`, but the `setdefault` loop never installs it (the
local dict already carries all three keys), so the resolved stems stay empty
and the present 1sg form is the bare ending `ω` instead of `γραφω`. -/
theorem claim_C2_fallback_unused :
    derive_stems_fallback (g "γραφω") =
      [("imperfective", g "γραφ"), ("perfective_active", g "γραφ"),
       ("perfective_passive", g "γραφ")] ∧
    resolved_stems entry_empty_stems =
      [("imperfective", []), ("perfective_active", []),
       ("perfective_passive", [])] ∧
    ((build_forms entry_empty_stems).bind (fun fs => fs.get? 0)).map
        GeneratedForm.form = some (g "ω") ∧
    ((((build_forms entry_empty_stems).bind (fun fs => fs.get? 0)).map
        GeneratedForm.form) == some (g "γραφω")) = false := by
  refine ⟨by decide, by decide, by decide, by decide⟩

/-- Inversion for `build_forms`: a successful result is the triple flatMap
over the class's ending tables. -/
theorem build_forms_inv (entry : VerbLexiconEntry) (fs : List GeneratedForm)
    (h : build_forms entry = some fs) :
    ∃ cls, get_conjugation_class entry.class_id = some cls ∧
      fs = cls.endings.flatMap fun tv =>
        tv.2.flatMap fun ve =>
          (PERSON_NUMBER.zip ve.2).map fun pe =>
            build_slot entry (resolved_stems entry)
              (entry.use_augment.getD cls.use_augment) tv.1 ve.1 pe.1.1 pe.1.2 pe.2 := by
  unfold build_forms at h
  cases hcls : get_conjugation_class entry.class_id with
  | none => rw [hcls] at h; exact Option.noConfusion h
  | some cls =>
    rw [hcls] at h
    exact ⟨cls, rfl, (Option.some.inj h).symm⟩

/-- For a class-A entry, every generated form records class id "A". -/
theorem build_forms_A_class_ids (entry : VerbLexiconEntry) (fs : List GeneratedForm)
    (hA : entry.class_id = "A") (h : build_forms entry = some fs) :
    ∀ f ∈ fs, f.morphology.class_id = "A" := by
  obtain ⟨cls, _, rfl⟩ := build_forms_inv entry fs h
  intro f hf
  rcases List.mem_flatMap.1 hf with ⟨tv, _, hf⟩
  rcases List.mem_flatMap.1 hf with ⟨ve, _, hf⟩
  rcases List.mem_map.1 hf with ⟨pe, _, rfl⟩
  exact hA

/-- The word-final-sigma rewrite never leaves a trailing `σ`. -/
theorem apply_final_sigma_last (l : List Char) :
    ((apply_final_sigma l).getLast? == some 'σ') = false := by
  induction l with
  | nil => rfl
  | cons c rest ih =>
    cases rest with
    | nil =>
      by_cases hc : c = 'σ'
      · subst hc; rfl
      · rw [apply_final_sigma, apply_final_sigma]
        simp [sigmaBoundary, hc]
    | cons d t =>
      rw [apply_final_sigma]
      have hcons : apply_final_sigma (d :: t) =
          (if d = 'σ' && sigmaBoundary t then 'ς' else d) :: apply_final_sigma t := rfl
      rw [hcons, List.getLast?_cons_cons, ← hcons]
      exact ih

/-- Every form produced by `build_forms` went through `apply_final_sigma`,
so none ends in a medial sigma. -/
theorem build_forms_no_trailing_sigma (entry : VerbLexiconEntry)
    (fs : List GeneratedForm) (h : build_forms entry = some fs) :
    ∀ f ∈ fs, (f.form.getLast? == some 'σ') = false := by
  obtain ⟨cls, _, rfl⟩ := build_forms_inv entry fs h
  intro f hf
  rcases List.mem_flatMap.1 hf with ⟨tv, _, hf⟩
  rcases List.mem_flatMap.1 hf with ⟨ve, _, hf⟩
  rcases List.mem_map.1 hf with ⟨pe, _, rfl⟩
  exact apply_final_sigma_last _

/-- An override replacement comes from one of the two record fields. -/
theorem override_for_inv {irr : IrregularEntry}
    {key : String × String × String × String} {r : List Char}
    (h : override_for irr key = some r) :
    irr.aorist_active = some r ∨ irr.aorist_passive = some r := by
  unfold override_for at h
  split at h
  · exact Or.inl h
  · split at h
    · exact Or.inr h
    · exact Option.noConfusion h

/-- C5 (amended): every form produced by the pipeline ends in no medial
sigma, provided every override string supplied by the irregulars map does
not itself end in `σ` (override strings are copied verbatim, without the
final-sigma rewrite). -/
theorem claim_C5_final_sigma (lem : List Char)
    (lexicon : List (List Char × VerbLexiconEntry))
    (irregulars : List (List Char × IrregularEntry))
    (hirr : irregulars.all
        (fun kie => no_trailing_sigma kie.2.aorist_active &&
          no_trailing_sigma kie.2.aorist_passive) = true) :
    ∀ f ∈ (generate_conjugations lem lexicon irregulars).getD [],
      (f.form.getLast? == some 'σ') = false := by
  intro f hf
  unfold generate_conjugations at hf
  cases hbf : build_forms (lookup_or_fallback lem lexicon) with
  | none => rw [hbf] at hf; exact absurd hf (by simp)
  | some forms =>
    rw [hbf, Option.map_some', Option.getD_some] at hf
    cases hio : (irregulars.find? (fun e => e.1 == normalize_lemma lem)).map
        (fun e => e.2) with
    | none =>
      rw [hio] at hf
      exact build_forms_no_trailing_sigma _ _ hbf f hf
    | some irr =>
      rw [hio] at hf
      rw [apply_overrides_eq_map] at hf
      rcases List.mem_map.1 hf with ⟨f0, hf0, rfl⟩
      cases hr : override_for irr (slot_key f0) with
      | none =>
        rw [override_step_none hr]
        exact build_forms_no_trailing_sigma _ _ hbf f0 hf0
      | some r =>
        rw [override_step_some hr]
        by_cases hg : r ≠ [] ∧ r ≠ g "–" ∧ r ≠ g "-"
        · rw [if_pos hg]
          show (r.getLast? == some 'σ') = false
          obtain ⟨kie, hfind⟩ : ∃ kie,
              irregulars.find? (fun e => e.1 == normalize_lemma lem) = some kie := by
            cases hfind : irregulars.find? (fun e => e.1 == normalize_lemma lem) with
            | none => rw [hfind] at hio; exact Option.noConfusion hio
            | some kie => exact ⟨kie, rfl⟩
          have hkie : kie ∈ irregulars := List.mem_of_find?_eq_some hfind
          have hall := List.all_eq_true.1 hirr kie hkie
          rw [Bool.and_eq_true] at hall
          have hirr2 : irr = kie.2 := by
            rw [hfind, Option.map_some'] at hio
            exact (Option.some.inj hio).symm
          rcases override_for_inv hr with hfield | hfield
          · have := hall.1
            rw [hirr2] at hfield
            rw [hfield] at this
            simpa [no_trailing_sigma] using this
          · have := hall.2
            rw [hirr2] at hfield
            rw [hfield] at this
            simpa [no_trailing_sigma] using this
        · rw [if_neg hg]
          exact build_forms_no_trailing_sigma _ _ hbf f0 hf0

/-- Witness for C5: a pipeline run with a well-formed override string. -/
theorem claim_C5_witness :
    ([(g "γραφω", ({ aorist_active := some (g "ηρθα") } : IrregularEntry))].all
        (fun kie => no_trailing_sigma kie.2.aorist_active &&
          no_trailing_sigma kie.2.aorist_passive) = true) ∧
    ∀ f ∈ (generate_conjugations (g "γραφω") []
        [(g "γραφω", { aorist_active := some (g "ηρθα") })]).getD [],
      (f.form.getLast? == some 'σ') = false :=
  ⟨by decide, claim_C5_final_sigma _ _ _ (by decide)⟩

/-- C5 counterexample: an irregular override string ending in `σ` is copied
verbatim into the pipeline output, so the no-trailing-`σ` invariant fails on
`generate_conjugations` as claimed. -/
theorem claim_C5_counterexample :
    (((generate_conjugations (g "γραφω") []
        [(g "γραφω", { aorist_active := some (g "αβσ") })]).getD []).get? 24).map
      (fun f => f.form) = some (g "αβσ") ∧
    (((g "αβσ" : List Char).getLast?) == some 'σ') = true := by
  constructor <;> decide

/-- C6 (amended): an absent lemma yields the synthesized fallback entry
(class "A", fallback-derived stems, note "fallback_lexicon") and the pipeline
still returns a full list of 48 forms, all recording class "A". -/
theorem claim_C6_fallback (lem : List Char)
    (lexicon : List (List Char × VerbLexiconEntry))
    (irregulars : List (List Char × IrregularEntry))
    (h : lexicon.find? (fun e => e.1 == normalize_lemma lem) = none) :
    lookup_or_fallback lem lexicon =
      { lemmaText := lem, class_id := "A", stems := derive_stems_fallback lem,
        notes := some "fallback_lexicon" } ∧
    ∃ fs, generate_conjugations lem lexicon irregulars = some fs ∧
      fs.length = 48 ∧ ∀ f ∈ fs, f.morphology.class_id = "A" := by
  have hlf : lookup_or_fallback lem lexicon =
      { lemmaText := lem, class_id := "A", stems := derive_stems_fallback lem,
        notes := some "fallback_lexicon" } := by
    unfold lookup_or_fallback
    rw [h]
    rfl
  refine ⟨hlf, ?_⟩
  obtain ⟨fs0, hbf, hlen, _⟩ :=
    build_forms_builtin (lookup_or_fallback lem lexicon) (Or.inl (by rw [hlf]))
  refine ⟨apply_irregular_overrides fs0
      ((irregulars.find? (fun e => e.1 == normalize_lemma lem)).map (fun e => e.2)),
    ?_, ?_, ?_⟩
  · unfold generate_conjugations
    rw [hbf, Option.map_some']
  · rw [apply_overrides_length, hlen]
  · intro f hf
    have hcl := apply_overrides_class_ids fs0
      ((irregulars.find? (fun e => e.1 == normalize_lemma lem)).map (fun e => e.2))
    have hmem : f.morphology.class_id ∈
        (apply_irregular_overrides fs0
          ((irregulars.find? (fun e => e.1 == normalize_lemma lem)).map
            (fun e => e.2))).map (fun f => f.morphology.class_id) :=
      List.mem_map_of_mem _ hf
    rw [hcl] at hmem
    rcases List.mem_map.1 hmem with ⟨f0, hf0, hfeq⟩
    rw [← hfeq]
    exact build_forms_A_class_ids _ _ (by rw [hlf]) hbf f0 hf0

/-- Witness for C6 at a lemma absent from an empty lexicon. -/
theorem claim_C6_witness :
    (([] : List (List Char × VerbLexiconEntry)).find?
        (fun e => e.1 == normalize_lemma (g "τρεχω")) = none) ∧
    (lookup_or_fallback (g "τρεχω") [] =
      { lemmaText := g "τρεχω", class_id := "A",
        stems := derive_stems_fallback (g "τρεχω"),
        notes := some "fallback_lexicon" } ∧
    ∃ fs, generate_conjugations (g "τρεχω") [] [] = some fs ∧
      fs.length = 48 ∧ ∀ f ∈ fs, f.morphology.class_id = "A") :=
  ⟨rfl, claim_C6_fallback (g "τρεχω") [] [] rfl⟩

/-- C6 counterexample: the pipeline on an absent lemma returns 48 forms, not
the claimed 24. -/
theorem claim_C6_counterexample :
    (generate_conjugations (g "τρεχω") [] []).map List.length = some 48 ∧
    (((generate_conjugations (g "τρεχω") [] []).map List.length) == some 24) = false := by
  constructor <;> decide

/-- A two-character prefix test pins down the first two characters. -/
theorem two_prefix_inv {a b : Char} {l : List Char}
    (h : ([a, b]).isPrefixOf l = true) : ∃ t, l = a :: b :: t := by
  cases l with
  | nil => simp [List.isPrefixOf] at h
  | cons x xs =>
    cases xs with
    | nil => simp [List.isPrefixOf] at h
    | cons y ys =>
      simp only [List.isPrefixOf, Bool.and_eq_true, beq_iff_eq] at h
      exact ⟨ys, by rw [h.1, h.2.1]⟩

/-- C3 (amended): for an aorist-passive slot whose stem ends in `τ`: if the
class ending begins with `θη`, the ending's `θη` is replaced by `τη` *and*
the stem's trailing `τ` is dropped (both adjustments fire together); if the
ending already begins with `τη`, the ending's *leading `τ`* is dropped and
the stem is used unchanged. -/
theorem claim_C3_passive_aorist (entry : VerbLexiconEntry)
    (stems : List (String × List Char)) (useAug : Bool) (p n : String)
    (ending : List Char)
    (hτ : (g "τ").isSuffixOf (dict_get stems "perfective_passive") = true) :
    ((g "θη").isPrefixOf ending = true →
      adjust_passive_aorist_ending (dict_get stems "perfective_passive") ending =
        g "τη" ++ ending.drop 2 ∧
      (build_slot entry stems useAug "aorist" "passive" p n ending).form =
        apply_final_sigma
          ((if useAug then apply_augment (dict_get stems "perfective_passive").dropLast
            else (dict_get stems "perfective_passive").dropLast) ++
            (g "τη" ++ ending.drop 2))) ∧
    ((g "τη").isPrefixOf ending = true →
      adjust_passive_aorist_ending (dict_get stems "perfective_passive") ending =
        ending.drop 1 ∧
      (build_slot entry stems useAug "aorist" "passive" p n ending).form =
        apply_final_sigma
          ((if useAug then apply_augment (dict_get stems "perfective_passive")
            else dict_get stems "perfective_passive") ++ ending.drop 1)) := by
  have hsuf : ['τ'] <:+ dict_get stems "perfective_passive" := by
    have h := hτ
    simpa [g] using h
  constructor
  · intro hθ
    obtain ⟨t, rfl⟩ := two_prefix_inv (show (['θ', 'η'] : List Char).isPrefixOf ending = true from hθ)
    have hadj : adjust_passive_aorist_ending (dict_get stems "perfective_passive")
        ('θ' :: 'η' :: t) = 'τ' :: 'η' :: t := by
      unfold adjust_passive_aorist_ending
      rw [if_pos (by rw [hτ, hθ]; rfl)]
      simp [g]
    refine ⟨by rw [hadj]; simp [g], ?_⟩
    cases useAug <;>
    · simp only [build_slot, hadj]
      simp [hsuf, hadj, g, List.isPrefixOf]
  · intro hη
    obtain ⟨t, rfl⟩ := two_prefix_inv (show (['τ', 'η'] : List Char).isPrefixOf ending = true from hη)
    have hθfalse : (g "θη").isPrefixOf ('τ' :: 'η' :: t) = false := by
      simp [g, List.isPrefixOf]
    have hadj : adjust_passive_aorist_ending (dict_get stems "perfective_passive")
        ('τ' :: 'η' :: t) = 'η' :: t := by
      unfold adjust_passive_aorist_ending
      rw [if_neg (by rw [hθfalse]; simp), if_pos (by rw [hτ, hη]; rfl)]
      rfl
    refine ⟨hadj, ?_⟩
    cases useAug <;>
    · simp only [build_slot, hadj]
      simp [hsuf, hadj, hθfalse, g, List.isPrefixOf]

/-- Witness for C3 at the χτίζω stems and the class-A ending `θηκα`. -/
theorem claim_C3_witness :
    (g "τ").isSuffixOf
      (dict_get (resolved_stems entry_xtizo) "perfective_passive") = true ∧
    adjust_passive_aorist_ending
        (dict_get (resolved_stems entry_xtizo) "perfective_passive") (g "θηκα") =
      g "τη" ++ (g "θηκα").drop 2 ∧
    (build_slot entry_xtizo (resolved_stems entry_xtizo) true
        "aorist" "passive" "1st" "singular" (g "θηκα")).form =
      apply_final_sigma
        ((if true then
            apply_augment (dict_get (resolved_stems entry_xtizo) "perfective_passive").dropLast
          else (dict_get (resolved_stems entry_xtizo) "perfective_passive").dropLast) ++
          (g "τη" ++ (g "θηκα").drop 2)) := by
  have h := claim_C3_passive_aorist entry_xtizo (resolved_stems entry_xtizo)
    true "1st" "singular" (g "θηκα") (by decide)
  exact ⟨by decide, (h.1 (by decide)).1, (h.1 (by decide)).2⟩

/-- C3 counterexample: on the stem `χτιστ` with ending `θηκα`, `build_forms`
yields the surface `εχτιστηκα` (stem `τ` dropped), not the `εχτισττηκα`
that the claim's "stem used unchanged" reading predicts. -/
theorem claim_C3_counterexample :
    ((((build_forms entry_xtizo).getD []).get? 30).map (fun f => f.form)) =
      some (g "εχτιστηκα") ∧
    claim_C3_spec_surface (g "χτιστ") (g "θηκα") true = g "εχτισττηκα" ∧
    ((g "εχτιστηκα" : List Char) == g "εχτισττηκα") = false := by
  refine ⟨by decide, by decide, by decide⟩

/-- Characters produced by decomposition are atoms: they decompose to
themselves. -/
theorem decomp_atom {c d : Char} (h : d ∈ decomp c) : decomp d = [d] := by
  unfold decomp at h
  cases hf : decompTable.find? (fun e => e.1 == c) with
  | none =>
    rw [hf] at h
    have : d = c := by simpa using h
    subst this
    unfold decomp
    rw [hf]
  | some e =>
    rw [hf] at h
    have he : e ∈ decompTable := List.mem_of_find?_eq_some hf
    have haux : ∀ e ∈ decompTable, ∀ d ∈ e.2,
        decompTable.find? (fun x => x.1 == d) = none := by decide
    unfold decomp
    rw [haux e he d h]

/-- `nfd` of a cons. -/
theorem nfd_cons (c : Char) (l : List Char) : nfd (c :: l) = decomp c ++ nfd l := by
  simp [nfd]

/-- Every character of an NFD string is an atom. -/
theorem nfd_atom {l : List Char} : ∀ d ∈ nfd l, decomp d = [d] := by
  intro d hd
  rcases List.mem_flatMap.1 hd with ⟨c, _, hdc⟩
  exact decomp_atom hdc

/-- `nfd` fixes strings of atoms. -/
theorem nfd_of_atoms {l : List Char} (h : ∀ c ∈ l, decomp c = [c]) : nfd l = l := by
  induction l with
  | nil => rfl
  | cons c t ih =>
    rw [nfd_cons, h c (List.mem_cons_self c t),
      ih (fun d hd => h d (List.mem_cons_of_mem c hd))]
    rfl

/-- `nfd` is idempotent. -/
theorem nfd_idem (l : List Char) : nfd (nfd l) = nfd l :=
  nfd_of_atoms nfd_atom

/-- A composite canonically decomposes into the decompositions of its two
parts. -/
theorem combine2_decomp {a b c : Char} (h : combine2 a b = some c) :
    decomp c = decomp a ++ decomp b := by
  unfold combine2 at h
  cases hf : composeTable.find? (fun e => e.1.1 == a && e.1.2 == b) with
  | none => rw [hf] at h; exact Option.noConfusion h
  | some e =>
    rw [hf, Option.map_some'] at h
    have he : e ∈ composeTable := List.mem_of_find?_eq_some hf
    have hp := List.find?_some hf
    rw [Bool.and_eq_true, beq_iff_eq, beq_iff_eq] at hp
    have haux : ∀ e ∈ composeTable, decomp e.2 = decomp e.1.1 ++ decomp e.1.2 := by
      decide
    rw [← Option.some.inj h, ← hp.1, ← hp.2]
    exact haux e he

/-- Composition preserves the canonical decomposition of a string. -/
theorem nfd_composeAux : ∀ (n : Nat) (l : List Char), nfd (composeAux n l) = nfd l := by
  intro n
  induction n with
  | zero => intro l; cases l <;> rfl
  | succ n ih =>
    intro l
    match l with
    | [] => rfl
    | [a] => rfl
    | a :: b :: rest =>
      show nfd (composeAux (n + 1) (a :: b :: rest)) = _
      rw [composeAux]
      cases hc : combine2 a b with
      | some c =>
        rw [ih (c :: rest), nfd_cons, nfd_cons, nfd_cons, combine2_decomp hc,
          List.append_assoc]
      | none =>
        rw [nfd_cons, ih (b :: rest), nfd_cons, nfd_cons, nfd_cons]

/-- `composeChars` preserves the canonical decomposition. -/
theorem nfd_composeChars (l : List Char) : nfd (composeChars l) = nfd l :=
  nfd_composeAux l.length l

/-- Composition preserves every character property that is closed under the
composition table. -/
theorem composeAux_pres (P : Char → Prop)
    (hP : ∀ a b c, combine2 a b = some c → P a → P b → P c) :
    ∀ (n : Nat) (l : List Char), (∀ x ∈ l, P x) → ∀ x ∈ composeAux n l, P x := by
  intro n
  induction n with
  | zero =>
    intro l hl x hx
    cases l with
    | nil => simp [composeAux] at hx
    | cons a t => exact hl x hx
  | succ n ih =>
    intro l hl x hx
    match l, hx with
    | [a], hx =>
      have : x = a := by simpa [composeAux] using hx
      exact this ▸ hl a (List.mem_cons_self a [])
    | a :: b :: rest, hx =>
      rw [composeAux] at hx
      cases hc : combine2 a b with
      | some c =>
        rw [hc] at hx
        refine ih (c :: rest) ?_ x hx
        intro y hy
        rcases List.mem_cons.1 hy with rfl | hy
        · exact hP a b y hc (hl a (by simp)) (hl b (by simp))
        · exact hl y (by simp [hy])
      | none =>
        rw [hc] at hx
        rcases List.mem_cons.1 hx with rfl | hx
        · exact hl x (by simp)
        · refine ih (b :: rest) ?_ x hx
          intro y hy
          exact hl y (List.mem_cons_of_mem a hy)

/-- `composeChars` preserves every table-closed character property. -/
theorem composeChars_pres (P : Char → Prop)
    (hP : ∀ a b c, combine2 a b = some c → P a → P b → P c)
    {l : List Char} (hl : ∀ x ∈ l, P x) : ∀ x ∈ composeChars l, P x :=
  composeAux_pres P hP l.length l hl

/-- The sigma fold never leaves a final sigma. -/
theorem sigmaToMedial_no_sigma {l : List Char} : ∀ x ∈ sigmaToMedial l, x ≠ 'ς' := by
  intro x hx
  rcases List.mem_map.1 hx with ⟨c, _, rfl⟩
  by_cases hc : c = 'ς' <;> simp [hc]

/-- The sigma fold fixes strings without a final sigma. -/
theorem sigmaToMedial_eq_self {l : List Char} (h : ∀ x ∈ l, x ≠ 'ς') :
    sigmaToMedial l = l := by
  unfold sigmaToMedial
  conv_rhs => rw [← List.map_id l]
  apply List.map_congr_left
  intro x hx
  simp [h x hx]

/-- The sigma fold preserves atoms. -/
theorem sigmaToMedial_atoms {l : List Char} (h : ∀ x ∈ l, decomp x = [x]) :
    ∀ x ∈ sigmaToMedial l, decomp x = [x] := by
  intro x hx
  rcases List.mem_map.1 hx with ⟨c, hc, rfl⟩
  by_cases hs : c = 'ς'
  · simp only [hs, if_pos]
    decide
  · simpa [hs] using h c hc

/-- The sigma fold preserves mark-freeness. -/
theorem sigmaToMedial_notMn {l : List Char} (h : ∀ x ∈ l, isMn x = false) :
    ∀ x ∈ sigmaToMedial l, isMn x = false := by
  intro x hx
  rcases List.mem_map.1 hx with ⟨c, hc, rfl⟩
  by_cases hs : c = 'ς'
  · simp only [hs, if_pos]
    decide
  · simpa [hs] using h c hc

/-- The sigma fold preserves lowercase-stability. -/
theorem sigmaToMedial_lowStable {l : List Char} (h : ∀ x ∈ l, lowerChar x = x) :
    ∀ x ∈ sigmaToMedial l, lowerChar x = x := by
  intro x hx
  rcases List.mem_map.1 hx with ⟨c, hc, rfl⟩
  by_cases hs : c = 'ς'
  · simp only [hs, if_pos]
    decide
  · simpa [hs] using h c hc

/-- Characters surviving the mark filter carry no mark. -/
theorem filterMn_notMn {l : List Char} : ∀ x ∈ filterMn l, isMn x = false := by
  intro x hx
  have h := (List.mem_filter.1 hx).2
  simpa using h

/-- The mark filter only keeps characters of the input. -/
theorem filterMn_sub {l : List Char} : ∀ x ∈ filterMn l, x ∈ l :=
  fun _ hx => (List.mem_filter.1 hx).1

/-- The mark filter fixes mark-free strings. -/
theorem filterMn_eq_self {l : List Char} (h : ∀ x ∈ l, isMn x = false) :
    filterMn l = l := by
  unfold filterMn
  apply List.filter_eq_self.2
  intro a ha
  simp [h a ha]

/-- Inversion for the composition step. -/
theorem combine2_inv {a b c : Char} (h : combine2 a b = some c) :
    ∃ e ∈ composeTable, e.1.1 = a ∧ e.1.2 = b ∧ e.2 = c := by
  unfold combine2 at h
  cases hf : composeTable.find? (fun e => e.1.1 == a && e.1.2 == b) with
  | none => rw [hf] at h; exact Option.noConfusion h
  | some e =>
    rw [hf, Option.map_some'] at h
    have hp := List.find?_some hf
    rw [Bool.and_eq_true, beq_iff_eq, beq_iff_eq] at hp
    exact ⟨e, List.mem_of_find?_eq_some hf, hp.1, hp.2, Option.some.inj h⟩

/-- Composites are never the final sigma. -/
theorem combine2_ne_sigma {a b c : Char} (h : combine2 a b = some c) : c ≠ 'ς' := by
  obtain ⟨e, he, _, _, rfl⟩ := combine2_inv h
  have haux : ∀ e ∈ composeTable, e.2 ≠ 'ς' := by decide
  exact haux e he

/-- Composites are never combining marks. -/
theorem combine2_notMn {a b c : Char} (h : combine2 a b = some c) : isMn c = false := by
  obtain ⟨e, he, _, _, rfl⟩ := combine2_inv h
  have haux : ∀ e ∈ composeTable, isMn e.2 = false := by decide
  exact haux e he

/-- A composite of a lowercase-stable starter is lowercase-stable. -/
theorem combine2_lowStable {a b c : Char} (h : combine2 a b = some c)
    (ha : lowerChar a = a) : lowerChar c = c := by
  obtain ⟨e, he, h1, _, rfl⟩ := combine2_inv h
  have haux : ∀ e ∈ composeTable, lowerChar e.1.1 = e.1.1 → lowerChar e.2 = e.2 := by
    decide
  exact haux e he (by rw [h1]; exact ha)

/-- Lowercasing is idempotent on characters. -/
theorem lowerChar_idem (c : Char) : lowerChar (lowerChar c) = lowerChar c := by
  cases hf : lowerTable.find? (fun e => e.1 == c) with
  | none =>
    have h1 : lowerChar c = c := by unfold lowerChar; rw [hf]
    rw [h1, h1]
  | some e =>
    have h1 : lowerChar c = e.2 := by unfold lowerChar; rw [hf]
    have he := List.mem_of_find?_eq_some hf
    have haux : ∀ e ∈ lowerTable, lowerTable.find? (fun x => x.1 == e.2) = none := by
      decide
    have h2 : lowerChar e.2 = e.2 := by unfold lowerChar; rw [haux e he]
    rw [h1, h2]

/-- Decomposition of a lowercase-stable character yields lowercase-stable
characters. -/
theorem decomp_lowStable {c : Char} (hc : lowerChar c = c) :
    ∀ d ∈ decomp c, lowerChar d = d := by
  intro d hd
  unfold decomp at hd
  cases hf : decompTable.find? (fun e => e.1 == c) with
  | none =>
    rw [hf] at hd
    have : d = c := by simpa using hd
    exact this ▸ hc
  | some e =>
    rw [hf] at hd
    have he := List.mem_of_find?_eq_some hf
    have hp := List.find?_some hf
    rw [beq_iff_eq] at hp
    have haux : ∀ e ∈ decompTable, lowerChar e.1 = e.1 → ∀ d ∈ e.2, lowerChar d = d := by
      decide
    exact haux e he (by rw [hp]; exact hc) d hd

/-- Characters of a lowercased string are lowercase-stable. -/
theorem lowerStr_lowStable {l : List Char} : ∀ x ∈ lowerStr l, lowerChar x = x := by
  intro x hx
  rcases List.mem_map.1 hx with ⟨c, _, rfl⟩
  exact lowerChar_idem c

/-- Lowercasing fixes lowercase-stable strings. -/
theorem lowerStr_eq_self {l : List Char} (h : ∀ x ∈ l, lowerChar x = x) :
    lowerStr l = l := by
  unfold lowerStr
  conv_rhs => rw [← List.map_id l]
  exact List.map_congr_left h

/-- `normalize_unicode` fixes composed strings of atoms. -/
theorem normalize_unicode_composed {Z : List Char}
    (hatom : ∀ x ∈ Z, decomp x = [x]) :
    normalize_unicode (composeChars Z) = composeChars Z := by
  by_cases h0 : composeChars Z = []
  · rw [h0]; rfl
  · rw [normalize_unicode, if_neg h0, nfc, nfd_composeChars, nfd_of_atoms hatom,
      nfd_of_atoms hatom]

/-- `remove_accents` fixes composed strings of mark-free, sigma-free atoms. -/
theorem remove_accents_composed {Z : List Char}
    (hatom : ∀ x ∈ Z, decomp x = [x]) (hmn : ∀ x ∈ Z, isMn x = false)
    (hsig : ∀ x ∈ Z, x ≠ 'ς') :
    remove_accents (composeChars Z) = composeChars Z := by
  by_cases h0 : composeChars Z = []
  · rw [h0]; rfl
  · rw [remove_accents, if_neg h0, nfc, nfd_composeChars, nfd_of_atoms hatom,
      filterMn_eq_self hmn, sigmaToMedial_eq_self hsig, nfd_of_atoms hatom]

/-- The sigma fold fixes compositions of sigma-free strings. -/
theorem sigmaToMedial_composed {Z : List Char} (hsig : ∀ x ∈ Z, x ≠ 'ς') :
    sigmaToMedial (composeChars Z) = composeChars Z :=
  sigmaToMedial_eq_self
    (composeChars_pres (fun c => c ≠ 'ς') (fun _ _ _ h _ _ => combine2_ne_sigma h) hsig)

/-- Lowercasing fixes compositions of lowercase-stable strings. -/
theorem lowerStr_composed {Z : List Char} (hlow : ∀ x ∈ Z, lowerChar x = x) :
    lowerStr (composeChars Z) = composeChars Z :=
  lowerStr_eq_self
    (composeChars_pres (fun c => lowerChar c = c)
      (fun _ _ _ h ha _ => combine2_lowStable h ha) hlow)

/-- `normalize_unicode` is idempotent. -/
theorem normalize_unicode_idem (l : List Char) :
    normalize_unicode (normalize_unicode l) = normalize_unicode l := by
  by_cases h0 : l = []
  · rw [h0]; rfl
  · have h1 : normalize_unicode l = composeChars (nfd (nfd l)) := by
      rw [normalize_unicode, if_neg h0, nfc]
    rw [h1]
    exact normalize_unicode_composed nfd_atom

/-- `remove_accents` is idempotent. -/
theorem remove_accents_idem (l : List Char) :
    remove_accents (remove_accents l) = remove_accents l := by
  by_cases h0 : l = []
  · rw [h0]; rfl
  · have hXatom : ∀ x ∈ sigmaToMedial (filterMn (nfd l)), decomp x = [x] :=
      sigmaToMedial_atoms (fun x hx => nfd_atom x (filterMn_sub x hx))
    have hXmn : ∀ x ∈ sigmaToMedial (filterMn (nfd l)), isMn x = false :=
      sigmaToMedial_notMn filterMn_notMn
    have hXsig : ∀ x ∈ sigmaToMedial (filterMn (nfd l)), x ≠ 'ς' :=
      sigmaToMedial_no_sigma
    have h1 : remove_accents l = composeChars (sigmaToMedial (filterMn (nfd l))) := by
      rw [remove_accents, if_neg h0, nfc, nfd_of_atoms hXatom]
    rw [h1]
    exact remove_accents_composed hXatom hXmn hXsig

/-- `normalize_lemma` is idempotent on inputs whose normalized result is
already whitespace-stripped. -/
theorem normalize_lemma_idem (x : List Char)
    (hx : pstrip (normalize_lemma x) = normalize_lemma x) :
    normalize_lemma (normalize_lemma x) = normalize_lemma x := by
  by_cases hx0 : x = []
  · rw [hx0]; rfl
  · have hnl : normalize_lemma x =
        sigmaToMedial (remove_accents (lowerStr (pstrip (normalize_unicode x)))) := by
      rw [normalize_lemma, if_neg hx0]
    by_cases hy0 : lowerStr (pstrip (normalize_unicode x)) = []
    · rw [hnl, hy0]
      rfl
    · have hXatom : ∀ c ∈ sigmaToMedial
          (filterMn (nfd (lowerStr (pstrip (normalize_unicode x))))), decomp c = [c] :=
        sigmaToMedial_atoms (fun c hc => nfd_atom c (filterMn_sub c hc))
      have hXmn : ∀ c ∈ sigmaToMedial
          (filterMn (nfd (lowerStr (pstrip (normalize_unicode x))))), isMn c = false :=
        sigmaToMedial_notMn filterMn_notMn
      have hXsig : ∀ c ∈ sigmaToMedial
          (filterMn (nfd (lowerStr (pstrip (normalize_unicode x))))), c ≠ 'ς' :=
        sigmaToMedial_no_sigma
      have hXlow : ∀ c ∈ sigmaToMedial
          (filterMn (nfd (lowerStr (pstrip (normalize_unicode x))))), lowerChar c = c := by
        apply sigmaToMedial_lowStable
        intro c hc
        rcases List.mem_flatMap.1 (filterMn_sub c hc) with ⟨d, hd, hcd⟩
        exact decomp_lowStable (lowerStr_lowStable d hd) c hcd
      have hra : remove_accents (lowerStr (pstrip (normalize_unicode x))) =
          composeChars (sigmaToMedial
            (filterMn (nfd (lowerStr (pstrip (normalize_unicode x)))))) := by
        rw [remove_accents, if_neg hy0, nfc, nfd_of_atoms hXatom]
      have hr : normalize_lemma x = composeChars (sigmaToMedial
          (filterMn (nfd (lowerStr (pstrip (normalize_unicode x)))))) := by
        rw [hnl, hra, sigmaToMedial_composed hXsig]
      rw [hr] at hx ⊢
      by_cases hr0 : composeChars (sigmaToMedial
          (filterMn (nfd (lowerStr (pstrip (normalize_unicode x)))))) = []
      · rw [hr0]; rfl
      · rw [normalize_lemma, if_neg hr0, normalize_unicode_composed hXatom, hx,
          lowerStr_composed hXlow, remove_accents_composed hXatom hXmn hXsig,
          sigmaToMedial_composed hXsig]

/-- C7 (amended): `normalize_unicode` and `remove_accents` are idempotent for
every string; `normalize_lemma` is idempotent for every input whose
normalized result carries no leading or trailing whitespace (accent
stripping can expose boundary whitespace, on which a second pass strips
further). -/
theorem claim_C7_idempotence (s x : List Char)
    (hx : pstrip (normalize_lemma x) = normalize_lemma x) :
    normalize_unicode (normalize_unicode s) = normalize_unicode s ∧
    remove_accents (remove_accents s) = remove_accents s ∧
    normalize_lemma (normalize_lemma x) = normalize_lemma x :=
  ⟨normalize_unicode_idem s, remove_accents_idem s, normalize_lemma_idem x hx⟩

/-- Witness for C7 at the accented input Γράφω. -/
theorem claim_C7_witness :
    pstrip (normalize_lemma (g "Γράφω")) = normalize_lemma (g "Γράφω") ∧
    (normalize_unicode (normalize_unicode (g "Γράφω")) =
        normalize_unicode (g "Γράφω") ∧
      remove_accents (remove_accents (g "Γράφω")) = remove_accents (g "Γράφω") ∧
      normalize_lemma (normalize_lemma (g "Γράφω")) = normalize_lemma (g "Γράφω")) :=
  ⟨by decide, claim_C7_idempotence (g "Γράφω") (g "Γράφω") (by decide)⟩

/-- C7 counterexample: on the input α, space, combining acute, stripping the
accent exposes a trailing space, so a second `normalize_lemma` strips
further and the function is not idempotent as claimed. -/
theorem claim_C7_counterexample :
    normalize_lemma ['α', ' ', '́'] = ['α', ' '] ∧
    normalize_lemma ( normalize_lemma ['α', ' ', '́']) = ['α'] ∧
    (( normalize_lemma ( normalize_lemma ['α', ' ', '́'])) ==
      normalize_lemma ['α', ' ', '́']) = false := by
  refine ⟨by decide, by decide, by decide⟩

/-- The LCS recurrence value is at most the length of the first argument. -/
theorem lcsLenAux_le_left : ∀ (n : Nat) (t1 t2 : List Char),
    lcsLenAux n t1 t2 ≤ t1.length := by
  intro n
  induction n with
  | zero => intro t1 t2; cases t1 <;> cases t2 <;> simp [lcsLenAux]
  | succ n ih =>
    intro t1 t2
    match t1, t2 with
    | [], _ => simp [lcsLenAux]
    | _ :: _, [] => simp [lcsLenAux]
    | a :: as, b :: bs =>
      rw [lcsLenAux]
      by_cases hab : a = b
      · rw [if_pos hab]
        exact Nat.succ_le_succ (ih as bs)
      · rw [if_neg hab]
        exact Nat.max_le.2 ⟨ih (a :: as) bs, Nat.le_succ_of_le (ih as (b :: bs))⟩

/-- The LCS recurrence value is at most the length of the second argument. -/
theorem lcsLenAux_le_right : ∀ (n : Nat) (t1 t2 : List Char),
    lcsLenAux n t1 t2 ≤ t2.length := by
  intro n
  induction n with
  | zero => intro t1 t2; cases t1 <;> cases t2 <;> simp [lcsLenAux]
  | succ n ih =>
    intro t1 t2
    match t1, t2 with
    | [], _ => simp [lcsLenAux]
    | _ :: _, [] => simp [lcsLenAux]
    | a :: as, b :: bs =>
      rw [lcsLenAux]
      by_cases hab : a = b
      · rw [if_pos hab]
        exact Nat.succ_le_succ (ih as bs)
      · rw [if_neg hab]
        exact Nat.max_le.2 ⟨Nat.le_succ_of_le (ih (a :: as) bs), ih as (b :: bs)⟩

/-- LCS against an empty first string is zero. -/
theorem lcs_length_nil_left (t2 : List Char) : lcs_length [] t2 = 0 := by
  unfold lcs_length
  cases t2 <;> simp [lcsLenAux]

/-- LCS against an empty second string is zero. -/
theorem lcs_length_nil_right (t1 : List Char) : lcs_length t1 [] = 0 := by
  unfold lcs_length
  cases t1 <;> simp [lcsLenAux]

/-- The LCS similarity ratio is nonnegative. -/
theorem calculate_lcs_nonneg (t1 t2 : List Char) :
    0 ≤ calculate_lcs_similarity t1 t2 := by
  unfold calculate_lcs_similarity
  split
  · exact le_refl 0
  · split
    · positivity
    · exact le_refl 0

/-- The LCS similarity ratio is at most one. -/
theorem calculate_lcs_le_one (t1 t2 : List Char) :
    calculate_lcs_similarity t1 t2 ≤ 1 := by
  unfold calculate_lcs_similarity
  split
  · exact zero_le_one
  · split
    · rename_i hmax
      rw [div_le_one (by exact_mod_cast hmax)]
      exact_mod_cast le_trans (lcsLenAux_le_left _ t1 t2) (le_max_left _ _)
    · exact zero_le_one

/-- C8: the similarity score lies in [0, 1]; it is 1 on identical non-empty
inputs and on two empty inputs; it is 0 when exactly one input is empty; and
in the general case (both non-empty, cleaned strings different) it equals
the LCS length of the two cleaned strings divided by the maximum of their
lengths. -/
theorem claim_C8_similarity (a b : List Char) :
    0 ≤ get_similarity_score a b ∧ get_similarity_score a b ≤ 1 ∧
    (a ≠ [] → get_similarity_score a a = 1) ∧
    (a = [] → b = [] → get_similarity_score a b = 1) ∧
    (a = [] → b ≠ [] → get_similarity_score a b = 0) ∧
    (a ≠ [] → b = [] → get_similarity_score a b = 0) ∧
    (a ≠ [] → b ≠ [] → clean_for_similarity a ≠ clean_for_similarity b →
      get_similarity_score a b =
        (lcs_length (clean_for_similarity a) (clean_for_similarity b) : ℚ) /
          ((max (clean_for_similarity a).length
            (clean_for_similarity b).length : ℕ) : ℚ)) := by
  refine ⟨?_, ?_, ?_, ?_, ?_, ?_, ?_⟩
  · unfold get_similarity_score
    split
    · exact zero_le_one
    · split
      · exact le_refl 0
      · split
        · exact zero_le_one
        · exact calculate_lcs_nonneg _ _
  · unfold get_similarity_score
    split
    · exact le_refl 1
    · split
      · exact zero_le_one
      · split
        · exact le_refl 1
        · exact calculate_lcs_le_one _ _
  · intro ha
    unfold get_similarity_score
    rw [if_neg (by simp [ha]), if_neg (by simp [ha]), if_pos rfl]
  · intro ha hb
    unfold get_similarity_score
    rw [if_pos ⟨ha, hb⟩]
  · intro ha hb
    unfold get_similarity_score
    rw [if_neg (by simp [hb]), if_pos (Or.inl ha)]
  · intro ha hb
    unfold get_similarity_score
    rw [if_neg (by simp [ha]), if_pos (Or.inr hb)]
  · intro ha hb hc
    unfold get_similarity_score
    rw [if_neg (by simp [ha]), if_neg (by simp [ha, hb]), if_neg hc]
    unfold calculate_lcs_similarity
    by_cases h1 : clean_for_similarity a = []
    · rw [if_pos (Or.inl h1), h1, lcs_length_nil_left]
      simp
    · by_cases h2 : clean_for_similarity b = []
      · rw [if_pos (Or.inr h2), h2, lcs_length_nil_right]
        simp
      · rw [if_neg (by simp [h1, h2]),
          if_pos (lt_of_lt_of_le (List.length_pos.2 h1) (le_max_left _ _))]

/-- Witness for C8 at the non-empty, non-equal inputs αβ and αγ: the score
is the LCS ratio 1/2. -/
theorem claim_C8_witness :
    (g "αβ" ≠ ([] : List Char)) ∧ (g "αγ" ≠ ([] : List Char)) ∧
    clean_for_similarity (g "αβ") ≠ clean_for_similarity (g "αγ") ∧
    get_similarity_score (g "αβ") (g "αγ") = (1 : ℚ) / 2 := by
  refine ⟨by decide, by decide, by decide, ?_⟩
  have h := (claim_C8_similarity (g "αβ") (g "αγ")).2.2.2.2.2.2
    (by decide) (by decide) (by decide)
  have h1 : lcs_length (clean_for_similarity (g "αβ"))
      (clean_for_similarity (g "αγ")) = 1 := by decide
  have h2 : (clean_for_similarity (g "αβ")).length = 2 := by decide
  have h3 : (clean_for_similarity (g "αγ")).length = 2 := by decide
  rw [h, h1, h2, h3]
  norm_num

end GreekConjugator
